import Mathlib

/-!
Shallow embedding of `vllm/entrypoints/openai/tool_parsers/utils.py`.

Strings are modelled as `List Char`.  Python's built-in `str.find`,
`str.find(sub, start)` and `str.replace(sub, '', 1)` are modelled by the
explicit list functions `listFind`, `findFrom` and `replaceFirst` below,
with Python's edge-case semantics (the empty pattern occurs at every
position `0 ≤ i ≤ len(s)`; `find` with a start index past the end returns
no hit; `replace` with an absent pattern is the identity).  Python's
`str.isalnum` is modelled by `Char.isAlphanum`, which agrees with it on
the ASCII range these utilities operate on.
-/

namespace VllmToolUtils

/-- Python `s.find(t)` on lists: the least index at which `t` occurs as a
contiguous sublist of `s` (`some 0` for the empty pattern), `none` when
`t` does not occur. -/
def listFind : List Char → List Char → Option Nat
  | [], t => if t.isPrefixOf ([] : List Char) then some 0 else none
  | c :: s, t => if t.isPrefixOf (c :: s) then some 0 else (listFind s t).map (· + 1)

/-- Python `s.replace(t, '', 1)`: remove the first (leftmost) occurrence
of `t` from `s`; `s` unchanged when `t` does not occur, and unchanged as
well for the empty pattern (which is "replaced" by the empty string at
position 0). -/
def replaceFirst (s t : List Char) : List Char :=
  match listFind s t with
  | none => s
  | some i => s.take i ++ s.drop (i + t.length)

/-- Python `s.find(t, start)`: the least index `≥ start` at which `t`
occurs, `none` when there is none or `start` exceeds the length of `s`. -/
def findFrom (s t : List Char) (start : Nat) : Option Nat :=
  if start ≤ s.length then (listFind (s.drop start) t).map (· + start) else none

/-- `find_common_prefix` from the source: compare characters at increasing
indices starting at 0 and stop at the first mismatch or when either
string is exhausted. -/
def find_common_prefix : List Char → List Char → List Char
  | c1 :: t1, c2 :: t2 => if c1 = c2 then c1 :: find_common_prefix t1 t2 else []
  | _, _ => []

/-- The backward scan of `find_common_suffix`, phrased on the reversed
strings: collect characters while they are equal and non-alphanumeric. -/
def commonSuffixRev : List Char → List Char → List Char
  | c1 :: t1, c2 :: t2 =>
      if c1 = c2 ∧ ¬ c1.isAlphanum then c1 :: commonSuffixRev t1 t2 else []
  | _, _ => []

/-- `find_common_suffix` from the source: the longest common trailing run
of non-alphanumeric characters, scanning from the last character backward
and stopping at the first mismatching or alphanumeric position. -/
def find_common_suffix (s1 s2 : List Char) : List Char :=
  (commonSuffixRev s1.reverse s2.reverse).reverse

/-- `extract_intermediate_diff` from the source, line by line: the Python
`old[::-1].replace(suffix[::-1], '', 1)[::-1]` becomes
`(replaceFirst old.reverse suf.reverse).reverse`, and the two guarded
strips mirror `if len(suffix):` and `if len(prefix):`. -/
def extract_intermediate_diff (curr old : List Char) : List Char :=
  let suf := find_common_suffix curr old
  let old1 := (replaceFirst old.reverse suf.reverse).reverse
  let pre := find_common_prefix curr old1
  let diff1 := if suf.length ≠ 0 then (replaceFirst curr.reverse suf.reverse).reverse else curr
  if pre.length ≠ 0 then replaceFirst diff1 pre else diff1

/-- The `while True` loop of `find_all_indices`, run for at most `fuel`
iterations.  `s.length + 1` iterations always suffice: each round
advances the search start past the index it just found, and `findFrom`
reports no hit once the start exceeds the length of `s`. -/
def faiLoop : Nat → List Char → List Char → Nat → List Nat
  | 0, _, _, _ => []
  | fuel + 1, s, t, start =>
      match findFrom s t start with
      | none => []
      | some i => i :: faiLoop fuel s t (i + 1)

/-- `find_all_indices` from the source: starting from `index = -1`,
repeatedly `index = string.find(substring, index + 1)` and collect every
hit until `find` fails. -/
def find_all_indices (s t : List Char) : List Nat :=
  faiLoop (s.length + 1) s t 0

/-- Spec steps 2 and 4 (trailing half): strip exactly one trailing
occurrence of `t` from `s`, no change when `t` is not a suffix of `s`. -/
def stripTrailingOnce (s t : List Char) : List Char :=
  if t.isSuffixOf s then s.take (s.length - t.length) else s

/-- Spec step 4 (leading half): strip exactly one leading occurrence of
`t` from `s`, no change when `t` is not a prefix of `s`. -/
def stripLeadingOnce (s t : List Char) : List Char :=
  if t.isPrefixOf s then s.drop t.length else s

/-- The Diff Extractor algorithm exactly as the specification words it
(steps 1-5 of §4.3), to be compared with the source's
`extract_intermediate_diff`. -/
def diffSpecAlg (curr old : List Char) : List Char :=
  let suf := find_common_suffix curr old
  let old1 := stripTrailingOnce old suf
  let pre := find_common_prefix curr old1
  let d1 := if suf = [] then curr else stripTrailingOnce curr suf
  if pre = [] then d1 else stripLeadingOnce d1 pre

/-- A string minus its trailing run of structural (non-alphanumeric)
characters; used to state the reconstruction claim. -/
def stripTrailingNonAlnum (s : List Char) : List Char :=
  (s.reverse.dropWhile (fun c => !c.isAlphanum)).reverse

/-- Concatenation of the streamed diffs over a sequence of snapshots: the
caller feeds each new snapshot together with the previously stored one,
starting from `prev`. -/
def diffConcat (prev : List Char) : List (List Char) → List Char
  | [] => []
  | c :: rest => extract_intermediate_diff c prev ++ diffConcat c rest

/-! ### Lemmas about the Python-builtin models -/

theorem listFind_of_pre {s t : List Char} (h : t <+: s) : listFind s t = some 0 := by
  cases s with
  | nil => simp [listFind, List.isPrefixOf_iff_prefix, h]
  | cons c s' => simp [listFind, List.isPrefixOf_iff_prefix, h]

theorem listFind_some_drop : ∀ {s t : List Char} {i : Nat},
    listFind s t = some i → t <+: s.drop i := by
  intro s
  induction s with
  | nil =>
      intro t i h
      simp only [listFind] at h
      split at h
      · next hp =>
          cases h
          exact List.isPrefixOf_iff_prefix.mp hp
      · exact absurd h (by simp)
  | cons c s' ih =>
      intro t i h
      simp only [listFind] at h
      split at h
      · next hp =>
          cases h
          exact List.isPrefixOf_iff_prefix.mp hp
      · next hp =>
          rw [Option.map_eq_some'] at h
          obtain ⟨j, hj, rfl⟩ := h
          rw [List.drop_succ_cons]
          exact ih hj

theorem listFind_some_min : ∀ {s t : List Char} {i : Nat},
    listFind s t = some i → ∀ j, j < i → ¬ t <+: s.drop j := by
  intro s
  induction s with
  | nil =>
      intro t i h j hj
      simp only [listFind] at h
      split at h
      · cases h; omega
      · exact absurd h (by simp)
  | cons c s' ih =>
      intro t i h j hj
      simp only [listFind] at h
      split at h
      · cases h; omega
      · next hp =>
          rw [Option.map_eq_some'] at h
          obtain ⟨k, hk, rfl⟩ := h
          cases j with
          | zero =>
              intro hcontra
              exact hp (List.isPrefixOf_iff_prefix.mpr hcontra)
          | succ j' =>
              rw [List.drop_succ_cons]
              exact ih hk j' (by omega)

theorem listFind_none : ∀ {s t : List Char},
    listFind s t = none → ∀ i, ¬ t <+: s.drop i := by
  intro s
  induction s with
  | nil =>
      intro t h i
      simp only [listFind] at h
      split at h
      · exact absurd h (by simp)
      · next hp =>
          intro hcontra
          rw [List.drop_nil] at hcontra
          exact hp (List.isPrefixOf_iff_prefix.mpr hcontra)
  | cons c s' ih =>
      intro t h i
      simp only [listFind] at h
      split at h
      · exact absurd h (by simp)
      · next hp =>
          rw [Option.map_eq_none'] at h
          cases i with
          | zero =>
              intro hcontra
              exact hp (List.isPrefixOf_iff_prefix.mpr hcontra)
          | succ i' =>
              rw [List.drop_succ_cons]
              exact ih h i'

theorem listFind_some_le : ∀ {s t : List Char} {i : Nat},
    listFind s t = some i → i ≤ s.length := by
  intro s t i h
  have hpre := listFind_some_drop h
  by_contra hgt
  push_neg at hgt
  have : s.drop i = [] := List.drop_eq_nil_of_le (by omega)
  rw [this, List.prefix_nil] at hpre
  subst hpre
  rw [listFind_of_pre List.nil_prefix] at h
  cases h
  omega

theorem listFind_none_of_long {s t : List Char} (h : s.length < t.length) :
    listFind s t = none := by
  cases hf : listFind s t with
  | none => rfl
  | some i =>
      have hpre := listFind_some_drop hf
      have := hpre.length_le
      rw [List.length_drop] at this
      omega

theorem listFind_nil_pat (s : List Char) : listFind s [] = some 0 :=
  listFind_of_pre List.nil_prefix

theorem replaceFirst_of_pre {s t : List Char} (h : t <+: s) :
    replaceFirst s t = s.drop t.length := by
  simp [replaceFirst, listFind_of_pre h]

theorem replaceFirst_append (t r : List Char) : replaceFirst (t ++ r) t = r := by
  rw [replaceFirst_of_pre (List.prefix_append t r), List.drop_left]

theorem replaceFirst_of_long {s t : List Char} (h : s.length < t.length) :
    replaceFirst s t = s := by
  simp [replaceFirst, listFind_none_of_long h]

theorem revReplace_append (u t : List Char) :
    (replaceFirst (u ++ t).reverse t.reverse).reverse = u := by
  rw [List.reverse_append, replaceFirst_append, List.reverse_reverse]

theorem take_sub_append (u t : List Char) :
    (u ++ t).take ((u ++ t).length - t.length) = u := by
  have : (u ++ t).length - t.length = u.length := by
    rw [List.length_append]; omega
  rw [this, List.take_left]

/-! ### Lemmas about the prefix matcher -/

theorem fcp_pre_left : ∀ (a b : List Char), find_common_prefix a b <+: a
  | [], _ => by simp [ find_common_prefix]
  | _ :: _, [] => by simp [ find_common_prefix]
  | c1 :: t1, c2 :: t2 => by
      simp only [ find_common_prefix]
      split
      · exact List.cons_prefix_cons.mpr ⟨rfl, fcp_pre_left t1 t2⟩
      · exact List.nil_prefix

theorem fcp_pre_right : ∀ (a b : List Char), find_common_prefix a b <+: b
  | [], _ => by simp [ find_common_prefix]
  | _ :: _, [] => by simp [ find_common_prefix]
  | c1 :: t1, c2 :: t2 => by
      simp only [ find_common_prefix]
      split
      · next h => exact List.cons_prefix_cons.mpr ⟨h, fcp_pre_right t1 t2⟩
      · exact List.nil_prefix

theorem fcp_comm : ∀ (a b : List Char), find_common_prefix a b = find_common_prefix b a
  | [], [] => rfl
  | [], _ :: _ => rfl
  | _ :: _, [] => rfl
  | c1 :: t1, c2 :: t2 => by
      simp only [ find_common_prefix]
      by_cases h : c1 = c2
      · subst h
        simp [fcp_comm t1 t2]
      · rw [if_neg h, if_neg (fun hc => h hc.symm)]

theorem fcp_longest : ∀ {p a b : List Char},
    p <+: a → p <+: b → p <+: find_common_prefix a b := by
  intro p
  induction p with
  | nil => intro a b _ _; exact List.nil_prefix
  | cons c p' ih =>
      intro a b ha hb
      obtain ⟨a', rfl, ha'⟩ :
          ∃ a', a = c :: a' ∧ p' <+: a' := by
        cases a with
        | nil => simp at ha
        | cons x a' =>
            obtain ⟨hx, h⟩ := List.cons_prefix_cons.mp ha
            exact ⟨a', by rw [hx], h⟩
      obtain ⟨b', rfl, hb'⟩ :
          ∃ b', b = c :: b' ∧ p' <+: b' := by
        cases b with
        | nil => simp at hb
        | cons x b' =>
            obtain ⟨hx, h⟩ := List.cons_prefix_cons.mp hb
            exact ⟨b', by rw [hx], h⟩
      simp only [ find_common_prefix, if_pos rfl]
      exact List.cons_prefix_cons.mpr ⟨rfl, ih ha' hb'⟩

theorem fcp_eq_left_of_pre {a b : List Char} (h : a <+: b) :
    find_common_prefix a b = a :=
  ( fcp_pre_left a b).eq_of_length
    (le_antisymm (( fcp_pre_left a b).length_le)
      ((fcp_longest (List.prefix_refl a) h).length_le))

theorem fcp_take (a : List Char) (n : Nat) :
    find_common_prefix a (a.take n) = a.take n := by
  rw [fcp_comm, fcp_eq_left_of_pre (List.take_prefix n a)]

/-! ### Lemmas about the suffix matcher -/

theorem csr_pre_left : ∀ (a b : List Char), commonSuffixRev a b <+: a
  | [], _ => by simp [commonSuffixRev]
  | _ :: _, [] => by simp [commonSuffixRev]
  | c1 :: t1, c2 :: t2 => by
      simp only [commonSuffixRev]
      split
      · exact List.cons_prefix_cons.mpr ⟨rfl, csr_pre_left t1 t2⟩
      · exact List.nil_prefix

theorem csr_pre_right : ∀ (a b : List Char), commonSuffixRev a b <+: b
  | [], _ => by simp [commonSuffixRev]
  | _ :: _, [] => by simp [commonSuffixRev]
  | c1 :: t1, c2 :: t2 => by
      simp only [commonSuffixRev]
      split
      · next h => exact List.cons_prefix_cons.mpr ⟨h.1, csr_pre_right t1 t2⟩
      · exact List.nil_prefix

theorem csr_comm : ∀ (a b : List Char), commonSuffixRev a b = commonSuffixRev b a
  | [], [] => rfl
  | [], _ :: _ => rfl
  | _ :: _, [] => rfl
  | c1 :: t1, c2 :: t2 => by
      simp only [commonSuffixRev]
      by_cases h : c1 = c2
      · subst h
        simp [csr_comm t1 t2]
      · rw [if_neg (fun hc => h hc.1), if_neg (fun hc => h hc.1.symm)]

theorem csr_nonalnum : ∀ {a b : List Char} {c : Char},
    c ∈ commonSuffixRev a b → c.isAlphanum = false := by
  intro a
  induction a with
  | nil => intro b c h; simp [commonSuffixRev] at h
  | cons c1 t1 ih =>
      intro b c h
      cases b with
      | nil => simp [commonSuffixRev] at h
      | cons c2 t2 =>
          simp only [commonSuffixRev] at h
          split at h
          · next hcond =>
              rcases List.mem_cons.mp h with rfl | h'
              · exact Bool.not_eq_true _ ▸ (by
                  have := hcond.2
                  simpa using this)
              · exact ih h'
          · simp at h

theorem csr_longest : ∀ {p a b : List Char},
    p <+: a → p <+: b → (∀ c ∈ p, c.isAlphanum = false) →
    p <+: commonSuffixRev a b := by
  intro p
  induction p with
  | nil => intro a b _ _ _; exact List.nil_prefix
  | cons c p' ih =>
      intro a b ha hb hna
      obtain ⟨a', rfl, ha'⟩ :
          ∃ a', a = c :: a' ∧ p' <+: a' := by
        cases a with
        | nil => simp at ha
        | cons x a' =>
            obtain ⟨hx, h⟩ := List.cons_prefix_cons.mp ha
            exact ⟨a', by rw [hx], h⟩
      obtain ⟨b', rfl, hb'⟩ :
          ∃ b', b = c :: b' ∧ p' <+: b' := by
        cases b with
        | nil => simp at hb
        | cons x b' =>
            obtain ⟨hx, h⟩ := List.cons_prefix_cons.mp hb
            exact ⟨b', by rw [hx], h⟩
      have hc : c.isAlphanum = false := hna c (List.mem_cons_self c p')
      have hstep : commonSuffixRev (c :: a') (c :: b') = c :: commonSuffixRev a' b' := by
        simp [commonSuffixRev, hc]
      rw [hstep]
      exact List.cons_prefix_cons.mpr
        ⟨rfl, ih ha' hb' (fun x hx => hna x (List.mem_cons_of_mem c hx))⟩

theorem csr_nil_left : ∀ (b : List Char), commonSuffixRev [] b = []
  | [] => rfl
  | _ :: _ => rfl

theorem csr_nil_right : ∀ (a : List Char), commonSuffixRev a [] = []
  | [] => rfl
  | _ :: _ => rfl

theorem csr_head_alnum {x : Char} {xs b : List Char} (h : x.isAlphanum = true) :
    commonSuffixRev (x :: xs) b = [] := by
  cases b with
  | nil => rfl
  | cons c2 t2 =>
      simp only [commonSuffixRev]
      rw [if_neg]
      intro hcond
      rw [h] at hcond
      exact hcond.2 rfl

theorem fcs_suf_left (a b : List Char) : find_common_suffix a b <:+ a := by
  rw [← List.reverse_prefix, find_common_suffix, List.reverse_reverse]
  exact csr_pre_left a.reverse b.reverse

theorem fcs_suf_right (a b : List Char) : find_common_suffix a b <:+ b := by
  rw [← List.reverse_prefix, find_common_suffix, List.reverse_reverse]
  exact csr_pre_right a.reverse b.reverse

theorem fcs_comm (a b : List Char) :
    find_common_suffix a b = find_common_suffix b a := by
  rw [find_common_suffix, find_common_suffix, csr_comm]

theorem fcs_nonalnum {a b : List Char} {c : Char}
    (h : c ∈ find_common_suffix a b) : c.isAlphanum = false := by
  rw [find_common_suffix, List.mem_reverse] at h
  exact csr_nonalnum h

theorem fcs_longest {u a b : List Char} (ha : u <:+ a) (hb : u <:+ b)
    (hna : ∀ c ∈ u, c.isAlphanum = false) :
    u.length ≤ (find_common_suffix a b).length := by
  rw [← List.reverse_prefix] at ha hb
  have := (csr_longest ha hb (by
    intro c hc
    exact hna c (List.mem_reverse.mp hc))).length_le
  rw [List.length_reverse] at this
  rw [find_common_suffix, List.length_reverse]
  exact this

theorem fcs_nil_of_ends_alnum {a : List Char}
    (h : Option.all (fun c => c.isAlphanum) a.getLast? = true) (b : List Char) :
    find_common_suffix a b = [] := by
  rw [find_common_suffix]
  cases hr : a.reverse with
  | nil => rw [csr_nil_left, List.reverse_nil]
  | cons x xs =>
      have hx : a.getLast? = some x := by
        rw [← List.head?_reverse, hr, List.head?_cons]
      rw [hx] at h
      simp only [Option.all_some] at h
      rw [csr_head_alnum h, List.reverse_nil]

/-! ### The diff extractor in closed form -/

theorem replaceFirst_eq_stripLeading {u p curr : List Char}
    (hu : u <+: curr) (hp : p <+: curr) :
    replaceFirst u p = stripLeadingOnce u p := by
  by_cases hpu : p <+: u
  · rw [replaceFirst_of_pre hpu, stripLeadingOnce,
      if_pos (List.isPrefixOf_iff_prefix.mpr hpu)]
  · have hlen : u.length < p.length := by
      by_contra hle
      push_neg at hle
      exact hpu (List.prefix_of_prefix_length_le hp hu hle)
    rw [replaceFirst_of_long hlen, stripLeadingOnce,
      if_neg (fun hc => hpu (List.isPrefixOf_iff_prefix.mp hc))]

theorem stripTrailingOnce_of_suf {s t : List Char} (h : t <:+ s) :
    stripTrailingOnce s t = s.take (s.length - t.length) := by
  rw [stripTrailingOnce, if_pos (List.isSuffixOf_iff_suffix.mpr h)]

/-- The whole of `extract_intermediate_diff`, rewritten with the two
reversed `replace` calls resolved: strip the common suffix off the end of
each string and the common prefix off the front of the suffix-stripped
current string. -/
theorem eid_eq_strip (curr old : List Char) :
    extract_intermediate_diff curr old =
      stripLeadingOnce (curr.take (curr.length - ( find_common_suffix curr old).length))
        ( find_common_prefix curr
          (old.take (old.length - ( find_common_suffix curr old).length))) := by
  obtain ⟨u, hu⟩ := fcs_suf_left curr old
  obtain ⟨v, hv⟩ := fcs_suf_right curr old
  set suf := find_common_suffix curr old with hsuf
  have hold1 : (replaceFirst old.reverse suf.reverse).reverse =
      old.take (old.length - suf.length) := by
    rw [← hv, revReplace_append, take_sub_append]
  have hdiff1 :
      (if suf.length ≠ 0 then (replaceFirst curr.reverse suf.reverse).reverse else curr) =
      curr.take (curr.length - suf.length) := by
    by_cases hz : suf.length = 0
    · rw [if_neg (by omega), hz, Nat.sub_zero, List.take_length]
    · rw [if_pos hz, ← hu, revReplace_append, take_sub_append]
  rw [extract_intermediate_diff]
  simp only [← hsuf, hold1, hdiff1]
  set pre := find_common_prefix curr (old.take (old.length - suf.length)) with hpre
  have hrepl : replaceFirst (curr.take (curr.length - suf.length)) pre =
      stripLeadingOnce (curr.take (curr.length - suf.length)) pre :=
    replaceFirst_eq_stripLeading (List.take_prefix _ curr) (hpre ▸ fcp_pre_left curr _)
  by_cases hp : pre.length ≠ 0
  · rw [if_pos hp, hrepl]
  · push_neg at hp
    have : pre = [] := List.length_eq_zero.mp hp
    rw [if_neg (by omega), this, stripLeadingOnce,
      if_pos (List.isPrefixOf_iff_prefix.mpr List.nil_prefix)]
    simp

/-- The spec's step-by-step algorithm reaches the same closed form. -/
theorem diffSpecAlg_eq_strip (curr old : List Char) :
    diffSpecAlg curr old =
      stripLeadingOnce (curr.take (curr.length - ( find_common_suffix curr old).length))
        ( find_common_prefix curr
          (old.take (old.length - ( find_common_suffix curr old).length))) := by
  set suf := find_common_suffix curr old with hsuf
  have hold1 : stripTrailingOnce old suf = old.take (old.length - suf.length) :=
    stripTrailingOnce_of_suf (hsuf ▸ fcs_suf_right curr old)
  have hd1 : (if suf = [] then curr else stripTrailingOnce curr suf) =
      curr.take (curr.length - suf.length) := by
    by_cases hz : suf = []
    · rw [if_pos hz, hz]
      simp [List.take_length]
    · rw [if_neg hz, stripTrailingOnce_of_suf (hsuf ▸ fcs_suf_left curr old)]
  rw [diffSpecAlg]
  simp only [← hsuf, hold1, hd1]
  set pre := find_common_prefix curr (old.take (old.length - suf.length)) with hpre
  by_cases hp : pre = []
  · rw [if_pos hp, hp, stripLeadingOnce,
      if_pos (List.isPrefixOf_iff_prefix.mpr List.nil_prefix)]
    simp
  · rw [if_neg hp]

/-! ### Reconstruction over a stream of snapshots -/

theorem eid_append (p r : List Char)
    (hr : Option.all (fun c => c.isAlphanum) ((p ++ r).getLast?) = true) :
    extract_intermediate_diff (p ++ r) p = r := by
  rw [eid_eq_strip, fcs_nil_of_ends_alnum hr]
  simp only [List.length_nil, Nat.sub_zero, List.take_length]
  rw [fcp_comm, fcp_eq_left_of_pre (List.prefix_append p r), stripLeadingOnce,
    if_pos (List.isPrefixOf_iff_prefix.mpr (List.prefix_append p r)), List.drop_left]

theorem getLastD_mem {α : Type} : ∀ (rest : List α) (c d : α),
    (c :: rest).getLastD d ∈ c :: rest
  | [], c, d => by simp
  | c' :: rest', c, d => by
      rw [List.getLastD_cons]
      exact List.mem_cons_of_mem c (getLastD_mem rest' c' c)

theorem diffConcat_chain : ∀ (ss : List (List Char)) (p : List Char),
    List.Chain (· <+: ·) p ss →
    (∀ s ∈ ss, Option.all (fun c => c.isAlphanum) s.getLast? = true) →
    p ++ diffConcat p ss = ss.getLastD p
  | [], p, _, _ => by simp [diffConcat]
  | c :: rest, p, hch, hend => by
      obtain ⟨hpc, hch'⟩ := List.chain_cons.mp hch
      obtain ⟨r, hr⟩ := hpc
      subst hr
      rw [diffConcat, eid_append p r (hend (p ++ r) (List.mem_cons_self _ _)),
        List.getLastD_cons, ← List.append_assoc]
      exact diffConcat_chain rest (p ++ r) hch'
        (fun s hs => hend s (List.mem_cons_of_mem _ hs))

theorem strip_eq_of_ends_alnum {s : List Char}
    (h : Option.all (fun c => c.isAlphanum) s.getLast? = true) :
    stripTrailingNonAlnum s = s := by
  rw [stripTrailingNonAlnum]
  cases hr : s.reverse with
  | nil =>
      rw [List.reverse_eq_nil_iff] at hr
      subst hr
      rfl
  | cons x xs =>
      have hx : s.getLast? = some x := by
        rw [← List.head?_reverse, hr, List.head?_cons]
      rw [hx] at h
      simp only [Option.all_some] at h
      rw [List.dropWhile_cons, if_neg (by simp [h]), ← hr, List.reverse_reverse]

/-! ### Lemmas about the occurrence finder -/

theorem findFrom_some {s t : List Char} {st i : Nat}
    (h : findFrom s t st = some i) :
    st ≤ i ∧ i ≤ s.length ∧ t <+: s.drop i := by
  rw [findFrom] at h
  split at h
  · next hst =>
      rw [Option.map_eq_some'] at h
      obtain ⟨j, hj, rfl⟩ := h
      have hle := listFind_some_le hj
      rw [List.length_drop] at hle
      have hpre := listFind_some_drop hj
      rw [List.drop_drop] at hpre
      refine ⟨by omega, by omega, ?_⟩
      have : st + j = j + st := by omega
      rw [← this]
      exact hpre
  · exact absurd h (by simp)

theorem findFrom_some_min {s t : List Char} {st i : Nat}
    (h : findFrom s t st = some i) :
    ∀ j, st ≤ j → j < i → ¬ t <+: s.drop j := by
  rw [findFrom] at h
  split at h
  · next hst =>
      rw [Option.map_eq_some'] at h
      obtain ⟨k, hk, rfl⟩ := h
      intro j hj1 hj2 hcontra
      have := listFind_some_min hk (j - st) (by omega)
      rw [List.drop_drop] at this
      have heq : st + (j - st) = j := by omega
      rw [heq] at this
      exact this hcontra
  · exact absurd h (by simp)

theorem findFrom_none {s t : List Char} {st : Nat}
    (h : findFrom s t st = none) :
    ∀ j, st ≤ j → j ≤ s.length → ¬ t <+: s.drop j := by
  rw [findFrom] at h
  split at h
  · next hst =>
      rw [Option.map_eq_none'] at h
      intro j hj1 _ hcontra
      have := listFind_none h (j - st)
      rw [List.drop_drop] at this
      have heq : st + (j - st) = j := by omega
      rw [heq] at this
      exact this hcontra
  · next hst =>
      intro j hj1 hj2 _
      omega

theorem faiLoop_mem (s t : List Char) : ∀ (fuel st : Nat),
    s.length + 1 ≤ st + fuel →
    ∀ i, i ∈ faiLoop fuel s t st ↔ (st ≤ i ∧ i ≤ s.length ∧ t <+: s.drop i) := by
  intro fuel
  induction fuel with
  | zero =>
      intro st hb i
      simp only [faiLoop, List.not_mem_nil, false_iff]
      intro hcontra
      omega
  | succ fuel ih =>
      intro st hb i
      rw [faiLoop]
      cases hf : findFrom s t st with
      | none =>
          simp only [List.not_mem_nil, false_iff]
          intro hcontra
          exact findFrom_none hf i hcontra.1 hcontra.2.1 hcontra.2.2
      | some k =>
          obtain ⟨hk1, hk2, hk3⟩ := findFrom_some hf
          rw [List.mem_cons, ih (k + 1) (by omega) i]
          constructor
          · rintro (rfl | ⟨h1, h2, h3⟩)
            · exact ⟨hk1, hk2, hk3⟩
            · exact ⟨by omega, h2, h3⟩
          · rintro ⟨h1, h2, h3⟩
            by_cases hik : i = k
            · exact Or.inl hik
            · refine Or.inr ⟨?_, h2, h3⟩
              by_contra hlt
              push_neg at hlt
              exact findFrom_some_min hf i h1 (by omega) h3

theorem faiLoop_sorted (s t : List Char) : ∀ (fuel st : Nat),
    s.length + 1 ≤ st + fuel →
    List.Sorted (· < ·) (faiLoop fuel s t st) := by
  intro fuel
  induction fuel with
  | zero => intro st _; simp [faiLoop]
  | succ fuel ih =>
      intro st hb
      rw [faiLoop]
      cases hf : findFrom s t st with
      | none => simp
      | some k =>
          obtain ⟨hk1, hk2, _⟩ := findFrom_some hf
          rw [List.sorted_cons]
          refine ⟨?_, ih (k + 1) (by omega)⟩
          intro b hb'
          have := (faiLoop_mem s t fuel (k + 1) (by omega) b).mp hb'
          omega

theorem faiLoop_length_le : ∀ (fuel : Nat) (s t : List Char) (st : Nat),
    (faiLoop fuel s t st).length ≤ fuel
  | 0, _, _, _ => by simp [faiLoop]
  | fuel + 1, s, t, st => by
      rw [faiLoop]
      cases findFrom s t st with
      | none => simp
      | some k =>
          simp only [List.length_cons]
          exact Nat.succ_le_succ (faiLoop_length_le fuel s t (k + 1))

theorem faiLoop_congr (s t : List Char) : ∀ (f1 f2 st : Nat),
    s.length + 1 ≤ st + f1 → s.length + 1 ≤ st + f2 →
    faiLoop f1 s t st = faiLoop f2 s t st := by
  intro f1
  induction f1 with
  | zero =>
      intro f2 st h1 h2
      cases f2 with
      | zero => rfl
      | succ g =>
          rw [faiLoop, faiLoop]
          have : findFrom s t st = none := by
            rw [findFrom, if_neg (by omega)]
          rw [this]
  | succ f1' ih =>
      intro f2 st h1 h2
      cases f2 with
      | zero =>
          rw [faiLoop, faiLoop]
          have : findFrom s t st = none := by
            rw [findFrom, if_neg (by omega)]
          rw [this]
      | succ g =>
          rw [faiLoop, faiLoop]
          cases hf : findFrom s t st with
          | none => rfl
          | some k =>
              obtain ⟨hk1, _, _⟩ := findFrom_some hf
              dsimp only
              rw [ih g (k + 1) (by omega) (by omega)]

theorem findFrom_nil_pat {s : List Char} {st : Nat} (h : st ≤ s.length) :
    findFrom s [] st = some st := by
  rw [findFrom, if_pos h, listFind_nil_pat]
  simp

theorem faiLoop_nil_pat (s : List Char) : ∀ (fuel st : Nat),
    st + fuel = s.length + 1 →
    faiLoop fuel s [] st = List.range' st fuel := by
  intro fuel
  induction fuel with
  | zero => intro st _; rfl
  | succ fuel ih =>
      intro st hb
      rw [faiLoop, findFrom_nil_pat (by omega), List.range'_succ]
      dsimp only
      rw [ih (st + 1) (by omega)]

theorem fcp_nil_left : ∀ (b : List Char), find_common_prefix [] b = []
  | [] => rfl
  | _ :: _ => rfl

theorem fcp_nil_right : ∀ (a : List Char), find_common_prefix a [] = []
  | [] => rfl
  | _ :: _ => rfl

theorem fcs_nil_left (b : List Char) : find_common_suffix [] b = [] := by
  rw [find_common_suffix, List.reverse_nil, csr_nil_left, List.reverse_nil]

theorem fcs_nil_right (a : List Char) : find_common_suffix a [] = [] := by
  rw [find_common_suffix, List.reverse_nil, csr_nil_right, List.reverse_nil]

/-! ### The claims -/

/-- C3: `find_common_prefix` computes the longest common prefix: it is a
prefix of both arguments, its length is maximal among common prefixes, it
is empty when the first characters differ, it returns the shorter string
when that string is a prefix of the other, and it matches the documented
example on the two JSON snapshots. -/
theorem find_common_prefix_spec (a b : List Char) :
    find_common_prefix a b <+: a ∧
    find_common_prefix a b <+: b ∧
    (∀ p : List Char, p <+: a → p <+: b → p.length ≤ ( find_common_prefix a b).length) ∧
    (∀ (x y : Char) (a' b' : List Char),
      a = x :: a' → b = y :: b' → x ≠ y → find_common_prefix a b = []) ∧
    (a <+: b → find_common_prefix a b = a) ∧
    find_common_prefix "\x7b\"fruit\": \"ap\"\x7d".toList
      "\x7b\"fruit\": \"apple\"\x7d".toList = "\x7b\"fruit\": \"ap".toList := by
  refine ⟨fcp_pre_left a b, fcp_pre_right a b, ?_, ?_, fcp_eq_left_of_pre, by decide⟩
  · intro p hpa hpb
    exact (fcp_longest hpa hpb).length_le
  · rintro x y a' b' rfl rfl hxy
    simp [ find_common_prefix, hxy]

/-- C4: `find_common_suffix` computes the longest common trailing run of
non-alphanumeric characters: the result is a suffix of both arguments,
every character of it is non-alphanumeric, its length is maximal among
common all-structural suffixes, and it matches the documented example. -/
theorem find_common_suffix_spec (a b : List Char) :
    find_common_suffix a b <:+ a ∧
    find_common_suffix a b <:+ b ∧
    (∀ c ∈ find_common_suffix a b, c.isAlphanum = false) ∧
    (∀ u : List Char, u <:+ a → u <:+ b → (∀ c ∈ u, c.isAlphanum = false) →
      u.length ≤ ( find_common_suffix a b).length) ∧
    find_common_suffix "\x7b\"fruit\": \"ap\"\x7d".toList
      "\x7b\"fruit\": \"apple\"\x7d".toList = "\"\x7d".toList :=
  ⟨fcs_suf_left a b, fcs_suf_right a b, fun _ hc => fcs_nonalnum hc,
    fun _ h1 h2 h3 => fcs_longest h1 h2 h3, by decide⟩

/-- C6: both matchers are symmetric in their two arguments. -/
theorem matchers_comm (a b : List Char) :
    find_common_prefix a b = find_common_prefix b a ∧
    find_common_suffix a b = find_common_suffix b a :=
  ⟨fcp_comm a b, fcs_comm a b⟩

/-- C2: `extract_intermediate_diff` coincides, on every pair of strings,
with the specification's reference algorithm (suffix match, strip one
trailing occurrence from `previous`, prefix match, strip one trailing
occurrence and then one leading occurrence from `current`), and it
produces the documented example value `'ple'`. -/
theorem eid_eq_diffSpecAlg (curr old : List Char) :
    extract_intermediate_diff curr old = diffSpecAlg curr old ∧
    extract_intermediate_diff "\x7b\"fruit\": \"apple\"\x7d".toList
      "\x7b\"fruit\": \"ap\"\x7d".toList = "ple".toList := by
  refine ⟨?_, by decide⟩
  rw [eid_eq_strip, diffSpecAlg_eq_strip]

/-- C7: a call with identical current and previous snapshots emits
nothing, for every snapshot ending only in structural (non-alphanumeric)
characters. -/
theorem eid_self_empty (a : List Char)
    (_h : Option.all (fun c => !c.isAlphanum) a.getLast? = true) :
    extract_intermediate_diff a a = [] := by
  rw [eid_eq_strip, fcp_take, stripLeadingOnce,
    if_pos (List.isPrefixOf_iff_prefix.mpr (List.prefix_refl _))]
  exact List.drop_length _

/-- C7 witness: the concrete all-structural snapshot `"{}"`. -/
theorem eid_self_empty_witness :
    extract_intermediate_diff "\x7b\x7d".toList "\x7b\x7d".toList = [] :=
  eid_self_empty "\x7b\x7d".toList (by decide)

/-- C8: the extracted diff is always a contiguous slice `current[i:j]` of
the current snapshot. -/
theorem eid_substring (curr old : List Char) :
    ∃ i j, i ≤ j ∧ j ≤ curr.length ∧
      extract_intermediate_diff curr old = (curr.take j).drop i := by
  rw [eid_eq_strip]
  set suf := find_common_suffix curr old with hsuf
  set pre := find_common_prefix curr (old.take (old.length - suf.length)) with hpre
  rw [stripLeadingOnce]
  split
  · next hp =>
      refine ⟨pre.length, curr.length - suf.length, ?_, by omega, rfl⟩
      have hle := (List.isPrefixOf_iff_prefix.mp hp).length_le
      rw [List.length_take] at hle
      exact (le_inf_iff.mp hle).1
  · exact ⟨0, curr.length - suf.length, by omega, by omega, by rw [List.drop_zero]⟩

/-- C5: for a non-empty search pattern, `find_all_indices` returns the
strictly increasing list of exactly the offsets at which the pattern
occurs (overlapping occurrences included), the empty list on an empty
string, and the documented overlap examples. -/
theorem find_all_indices_spec (s t : List Char) (h : t ≠ []) :
    List.Sorted (· < ·) ( find_all_indices s t) ∧
    (∀ i, i ∈ find_all_indices s t ↔ (s.take (i + t.length)).drop i = t) ∧
    (s = [] → find_all_indices s t = []) ∧
    find_all_indices "aaa".toList "aa".toList = [0, 1] ∧
    find_all_indices "abcabc".toList "abc".toList = [0, 3] := by
  refine ⟨faiLoop_sorted s t (s.length + 1) 0 (by omega), ?_, ?_, by decide, by decide⟩
  · intro i
    rw [find_all_indices, faiLoop_mem s t (s.length + 1) 0 (by omega) i,
      List.drop_take]
    have harith : i + t.length - i = t.length := by omega
    rw [harith]
    constructor
    · rintro ⟨_, _, hpre⟩
      exact (List.prefix_iff_eq_take.mp hpre).symm
    · intro hslice
      have hpre : t <+: s.drop i := List.prefix_iff_eq_take.mpr hslice.symm
      have hlen := hpre.length_le
      rw [List.length_drop] at hlen
      have htlen : 0 < t.length := List.length_pos.mpr h
      exact ⟨by omega, by omega, hpre⟩
  · rintro rfl
    rw [find_all_indices]
    have hnone : findFrom [] t 0 = none := by
      rw [findFrom, if_pos (by simp), List.drop_nil,
        listFind_none_of_long (by simpa using List.length_pos.mpr h)]
      rfl
    simp only [List.length_nil, faiLoop, hnone]

/-- C5 witness: the pattern `"aa"` is non-empty and the properties hold
at `s = "aaa"`; membership is checked at offset 1. -/
theorem find_all_indices_spec_witness :
    ("aa".toList ≠ ([] : List Char)) ∧
    (1 ∈ find_all_indices "aaa".toList "aa".toList ↔
      ("aaa".toList.take (1 + "aa".toList.length)).drop 1 = "aa".toList) :=
  ⟨by decide, (find_all_indices_spec "aaa".toList "aa".toList (by decide)).2.1 1⟩

/-- C9: all four operations are total: the degenerate empty-string inputs
yield empty results, the diff of anything against an empty previous
snapshot is returned without error, and the `while True` loop of
`find_all_indices` terminates: `s.length + 1` iterations always reach the
loop's `break`, so any larger iteration bound computes the same list, of
length at most `s.length + 1`. -/
theorem utils_total (a b s t : List Char) (extra : Nat) :
    find_common_prefix a [] = [] ∧
    find_common_prefix [] b = [] ∧
    find_common_suffix a [] = [] ∧
    find_common_suffix [] b = [] ∧
    extract_intermediate_diff a [] = a ∧
    faiLoop (s.length + 1 + extra) s t 0 = find_all_indices s t ∧
    ( find_all_indices s t).length ≤ s.length + 1 := by
  refine ⟨fcp_nil_right a, fcp_nil_left b, fcs_nil_right a, fcs_nil_left b, ?_, ?_, ?_⟩
  · rw [eid_eq_strip, fcs_nil_right]
    simp only [List.length_nil, Nat.sub_zero, List.take_length, List.take_nil,
      fcp_nil_right]
    rw [stripLeadingOnce, if_pos (List.isPrefixOf_iff_prefix.mpr List.nil_prefix)]
    simp
  · rw [find_all_indices]
    exact faiLoop_congr s t (s.length + 1 + extra) (s.length + 1) 0 (by omega) (by omega)
  · rw [find_all_indices]
    exact faiLoop_length_le (s.length + 1) s t 0

/-- C10: called with the empty pattern (outside the spec's stated
precondition), `find_all_indices` still terminates and returns every
position of the string plus the end position, `[0, 1, ..., len(s)]`. -/
theorem find_all_indices_empty_pat (s : List Char) :
    find_all_indices s [] = List.range (s.length + 1) := by
  rw [find_all_indices, faiLoop_nil_pat s (s.length + 1) 0 (by omega),
    List.range_eq_range']

/-- C1 counterexample: the two-snapshot sequence `s0 = ""`, `s1 = "a}"`
satisfies the monotonic-growth invariant in the strongest sense (`s0` is
a plain prefix of `s1`, and `s0`'s content with the structural tail
stripped is a prefix of `s1`'s), yet the concatenation of the diffs is
`"a}"` — the first call returns the first snapshot in full, structural
tail included — and not `"a"`, the final snapshot minus its trailing
structural run, as the claim requires. -/
theorem eid_reconstruction_cex :
    ([] : List Char) <+: "a\x7d".toList ∧
    stripTrailingNonAlnum ([] : List Char) <+: stripTrailingNonAlnum "a\x7d".toList ∧
    diffConcat [] ["a\x7d".toList] = "a\x7d".toList ∧
    diffConcat [] ["a\x7d".toList] ≠ stripTrailingNonAlnum "a\x7d".toList :=
  ⟨List.nil_prefix, List.nil_prefix, by decide, by decide⟩

/-- C1 (amended): for snapshot sequences seeded with the empty string in
which each snapshot extends the previous one as a string and every
snapshot ends in an alphanumeric character — so no snapshot carries a
speculative structural tail — concatenating the diffs reconstructs the
final snapshot, whose trailing structural run is empty.  (When a snapshot
does end in structural characters the claimed identity fails: the first
diff emits that snapshot whole, tail included, see the counterexample.) -/
theorem eid_reconstruction (ss : List (List Char))
    (hchain : List.Chain (· <+: ·) [] ss)
    (hend : ∀ s ∈ ss, Option.all (fun c => c.isAlphanum) s.getLast? = true) :
    diffConcat [] ss = stripTrailingNonAlnum (ss.getLastD []) := by
  have h := diffConcat_chain ss [] hchain hend
  rw [List.nil_append] at h
  rw [h]
  cases ss with
  | nil => rfl
  | cons c rest =>
      exact (strip_eq_of_ends_alnum (hend _ (getLastD_mem rest c []))).symm

/-- C1 witness: the growing alphanumeric-ending chain `"" , "a", "ab"`. -/
theorem eid_reconstruction_witness :
    diffConcat [] ["a".toList, "ab".toList] =
      stripTrailingNonAlnum "ab".toList :=
  eid_reconstruction ["a".toList, "ab".toList]
    (List.Chain.cons List.nil_prefix
      (List.Chain.cons ⟨"b".toList, by decide⟩ List.Chain.nil))
    (by decide)

end VllmToolUtils
